import Mathlib

/-!
Shallow embedding of the keyboard-layout scorer (src/layout.rs, src/penalty.rs).

A `Layout` in the source is `KeyMap([char; 108])`: a fixed array of 108
characters indexed by linear position.  We embed it as a function `Nat → Char`;
only indices `0..107` are ever read by the embedded operations (every
traversal in the source is over the fixed range, mirrored here with
`List.range 108` etc.), so values outside that range are irrelevant.
Rust `f64` arithmetic is embedded over `ℝ`.
-/

namespace Keygen

/-- A keyboard layout: position index → character (source `Layout(KeyMap<char>)`,
an array of 108 chars; indices ≥ 108 are never consulted). -/
abbrev Layout : Type := Nat → Char

/-- Source `fn is_tap(key: usize) -> bool { key % 9 == 8 }` (layout.rs). -/
def is_tap (key : Nat) : Bool := key % 9 == 8

/-- The 108 characters of the source's `INIT_LAYOUT` static, in order. -/
def INIT_LIST : List Char :=
  ['\x00','c','\x00','\x00','\x00','\x00','\x00','\x00','r',
   'z','\x00','k','\x00','\x00','\x00','\x00','\x00','s',
   '\x00','\x00','\x00','\x00','\x00','\x00','\x00','\x00','i',
   'l','\x00','v','\x00','\x00','\x00','x','\x00','n',
   '\x00','d','\x00','g','\x00','p','\x00','f','o',
   '\x00','\x00','y','\x00','u','\x00','\x00','\x00','a',
   'm','\x00','\x00','\x00','\x00','\x00','j','\x00','h',
   '\x00',',','\x00','\x00','\x00','b','\x00','w','t',
   '\x00','\x00','.','\x00','\x00','\'','\x00','q','e',
   '\x00','\x00','\x00','\x00','\x00','\x00','\x00','\x00','\x00',
   '\x00','\x00','\x00','\x00','\x00','\x00','\x00','\x00','\x00',
   '\x00','\x00','\x00','\x00','\x00','\x00','\x00','\x00',' ']

/-- Source static `INIT_LAYOUT` (layout.rs). -/
def INIT_LAYOUT : Layout := fun p => INIT_LIST.getD p '\x00'

/-- Array swap `layer.swap(i, j)` on the embedded layout function. -/
def swapN (i j : Nat) (L : Layout) : Layout :=
  fun p => if p = i then L j else if p = j then L i else L p

/-- One step of `LayoutPermutations::next`: clone the base and apply
`layer.swap(i, j); layer.swap(j, k)` for a precomputed triple `(i, j, k)`. -/
def applyTriple (L : Layout) (t : Nat × Nat × Nat) : Layout :=
  swapN t.2.1 t.2.2 (swapN t.1 t.2.1 L)

/-- The precomputed swap list built by `LayoutPermutations::new` (layout.rs):
`for i in 0..81 { for j in (i+1)..81 { if is_tap(i)==is_tap(j) {
for k in j..81 { if is_tap(j)==is_tap(k) { swaps.push((i,j,k)) } } } } }`. -/
def swaps : List (Nat × Nat × Nat) :=
  (List.range 81).flatMap fun i =>
    (List.range' (i + 1) (81 - (i + 1))).flatMap fun j =>
      if is_tap i = is_tap j then
        (List.range' j (81 - j)).filterMap fun k =>
          if is_tap j = is_tap k then some (i, j, k) else none
      else []

/-- Iterating `LayoutPermutations` (constructed from `base`) to exhaustion:
`next` returns, for each successive precomputed triple, the base layout with
that triple's two swaps applied, then `None` once the list is spent. -/
def layoutPermutations (base : Layout) : List Layout :=
  swaps.map (applyTriple base)

/-- Source `Layout::shuffle`: each accepted random draw is a pair reduced
mod 81; the source retries a draw until `is_tap(i) == is_tap(j)`, so draws
failing that test leave the layout unchanged (they are redrawn), and accepted
draws perform `layer.swap(i, j)`.  The random stream is made explicit as the
`draws` argument. -/
def shuffle (L : Layout) (draws : List (Nat × Nat)) : Layout :=
  draws.foldl
    (fun acc d =>
      if is_tap (d.1 % 81) = is_tap (d.2 % 81) then
        swapN (d.1 % 81) (d.2 % 81) acc
      else acc)
    L

/-- Source `Layout::get_position_map` (layout.rs): start from an all-`None`
array of 128 entries and, scanning positions `0..108` in order, write
`map[c as usize] = Some(pos)` whenever the layout character `c` at `pos`
satisfies `c < 128 as char` (later positions overwrite earlier ones). -/
def get_position_map (L : Layout) : Char → Option Nat :=
  (List.range 108).foldl
    (fun m p =>
      if (L p).toNat < 128 then fun c => if c = L p then some p else m c
      else m)
    (fun _ => none)

/-- Source `LayoutPosMap::get_key_position`: characters `< 128` are looked up
in the array, anything else is `None`. -/
def get_key_position (L : Layout) (kc : Char) : Option Nat :=
  if kc.toNat < 128 then get_position_map L kc else none

/-! ### Quartad compiler (penalty.rs, `prepare_quartad_list`)

The source iterates `string.chars().enumerate()`, keeping a byte range
`[start, end)` and a `HashMap<&str, usize>`.  The corpus is embedded as a
`List Char` (the source indexes bytes, which coincides with character indices
for the ASCII corpora the tool is built for), the map as an association list
whose increment mirrors `entry(quartad).or_insert(0) += 1`. -/

/-- `*quartads.entry(quartad).or_insert(0) += 1`. -/
def incrQ : List (List Char × Nat) → List Char → List (List Char × Nat)
  | [], q => [(q, 1)]
  | (k, n) :: rest, q =>
    if k = q then (k, n + 1) :: rest else (k, n) :: incrQ rest q

/-- The loop body of `prepare_quartad_list`: `rem` is the not-yet-processed
suffix of the corpus `s` (so `s.drop i = rem`), `start` is `range.start`, and
`t` the table built so far.  A character present in the position map sets
`range.end = i + 1`, clamps `range.start` to a window of at most 4, and
records the substring `s[start..end]`; an absent character resets the range
to `(i+1)..(i+1)`. -/
def quartadGo (pm : Char → Option Nat) (s : List Char) :
    List Char → Nat → Nat → List (List Char × Nat) → List (List Char × Nat)
  | [], _, _, t => t
  | c :: rem, i, start, t =>
    match pm c with
    | some _ =>
      let e := i + 1
      let start' := if 3 < e ∧ start < e - 4 then e - 4 else start
      quartadGo pm s rem (i + 1) start'
        (incrQ t ((s.drop start').take (e - start')))
    | none => quartadGo pm s rem (i + 1) (i + 1) t

/-- Source `prepare_quartad_list` (penalty.rs): scan the whole corpus with an
initially empty range `0..0` and empty table. -/
def prepare_quartad_list (pm : Char → Option Nat) (s : List Char) :
    List (List Char × Nat) :=
  quartadGo pm s s 0 0 []

/-- Lookup of a window's count in the built table (`HashMap::get`). -/
def lookupQ : List (List Char × Nat) → List Char → Option Nat
  | [], _ => none
  | (k, n) :: rest, q => if k = q then some n else lookupQ rest q

/-! ### Penalty model (penalty.rs)

`f64` is embedded as `ℝ`.  The `Vec<KeyPenaltyResult>` holds, when `detailed`
is set, exactly the five entries pushed by `init()`, in order: index 0 = base
penalty, 1 = swipe penalty, 2 = thumb travel distance penalty, 3 = length 3
alternation bonus, 4 = length 4 alternation bonus.  It is embedded as a
structure with one field per entry.  A `KeyPress` carries only `pos: usize`,
embedded as a bare `Nat`. -/

/-- Source `KeyPenaltyResult`: name, running total, per-window breakdown. -/
structure KeyPenaltyResult where
  name : String
  total : ℝ
  high_keys : List (List Char × ℝ)

/-- The five per-term accumulators pushed by `init()`, in their `Vec` order. -/
structure PenaltyResults where
  base : KeyPenaltyResult
  swipe : KeyPenaltyResult
  travel : KeyPenaltyResult
  alt3 : KeyPenaltyResult
  alt4 : KeyPenaltyResult

/-- The five zeroed accumulators created by `calculate_penalty` when
`detailed` is set, named as in `init()`. -/
def init_results : PenaltyResults :=
  ⟨⟨"base penalty", 0, []⟩, ⟨"swipe penalty", 0, []⟩,
   ⟨"thumb travel distance penalty", 0, []⟩,
   ⟨"length 3 alternation bonus", 0, []⟩,
   ⟨"length 4 alternation bonus", 0, []⟩⟩

/-- `*result[i].high_keys.entry(slice).or_insert(0.0) += amt`. -/
noncomputable def addHK : List (List Char × ℝ) → List Char → ℝ → List (List Char × ℝ)
  | [], k, v => [(k, v)]
  | (k0, v0) :: rest, k, v =>
    if k0 = k then (k0, v0 + v) :: rest else (k0, v0) :: addHK rest k v

/-- `result[i].total += amt` together with the `high_keys` update. -/
noncomputable def bump (r : KeyPenaltyResult) (slice : List Char) (amt : ℝ) :
    KeyPenaltyResult :=
  { r with total := r.total + amt, high_keys := addHK r.high_keys slice amt }

/-- Static `BASE_TAP_PENALTY: [[f64; 3]; 4]` (penalty.rs). -/
noncomputable def BASE_TAP_PENALTY (row col : Nat) : ℝ :=
  match row, col with
  | 0, 0 => 0.2  | 0, 1 => 0.15 | 0, 2 => 0.1
  | 1, 0 => 0.15 | 1, 1 => 0.1  | 1, 2 => 0.05
  | 2, 0 => 0.1  | 2, 1 => 0.05 | 2, 2 => 0.0
  | _, _ => 0.0

/-- `SWIPE_PENALTY: f64 = 0.5`. -/
noncomputable def SWIPE_PENALTY : ℝ := 0.5

/-- `A: f64 = 0.127`, the tap-time floor of Fitts's law. -/
noncomputable def A : ℝ := 0.127

/-- `D_SWIPE: f64 = 1.3`, the fixed swipe distance. -/
noncomputable def D_SWIPE : ℝ := 1.3

/-- `LENGTH_3_ALTERNATION_BONUS: f64 = 0.2`. -/
noncomputable def LENGTH_3_ALTERNATION_BONUS : ℝ := 0.2

/-- `LENGTH_4_ALTERNATION_BONUS: f64 = 0.3`. -/
noncomputable def LENGTH_4_ALTERNATION_BONUS : ℝ := 0.3

/-- `fn fitts_law(dist, width) { A.max(1.0 / 4.9 * f64::log2(dist / width + 1.0)) }`. -/
noncomputable def fitts_law (dist width : ℝ) : ℝ :=
  max A (1 / 4.9 * Real.logb 2 (dist / width + 1))

/-- `fn square(x) { x * x }`. -/
noncomputable def square (x : ℝ) : ℝ := x * x

/-- `fn distance(point0, point1)`: Euclidean distance. -/
noncomputable def distance (point0 point1 : ℝ × ℝ) : ℝ :=
  Real.sqrt (square (point0.1 - point1.1) + square (point0.2 - point1.2))

/-- `fn get_coordinates(key)`: `spot = pos / 9; ((spot / 3), (spot % 3))`. -/
noncomputable def get_coordinates (pos : Nat) : ℝ × ℝ :=
  ((((pos / 9) / 3 : Nat) : ℝ), (((pos / 9) % 3 : Nat) : ℝ))

/-- `fn get_base_tap_penalty(key)`: indexes `BASE_TAP_PENALTY` by cell. -/
noncomputable def get_base_tap_penalty (pos : Nat) : ℝ :=
  BASE_TAP_PENALTY ((pos / 9) / 3) ((pos / 9) % 3)

/-- `fn get_column(key) { (key.pos / 9) % 3 }`. -/
def get_column (pos : Nat) : Nat := (pos / 9) % 3

/-- `fn is_left(column) { column == 0 || column == 1 }`. -/
def is_left (column : Nat) : Bool := column == 0 || column == 1

/-- `fn is_right(column) { column == 2 || column == 1 }`. -/
def is_right (column : Nat) : Bool := column == 2 || column == 1

/-- `fn get_swipe_details(old1, layout)`: returns the coordinate of the end of
the swipe (cell center displaced by `D_SWIPE` along the swipe angle
`dir / 8.0 * 2π`, sine on the first coordinate and cosine on the second, as in
the source) and the effective width, which narrows when the neighbouring swipe
slots `(dir+1) % 8` and `(dir+7) % 8` of the same cell are occupied. -/
noncomputable def get_swipe_details (pos : Nat) (layout : Layout) : (ℝ × ℝ) × ℝ :=
  let spot := pos / 9
  let dir := pos % 9
  let c := get_coordinates pos
  let angle := (dir : ℝ) / 8 * 2 * Real.pi
  let endc : ℝ × ℝ := (c.1 + D_SWIPE * Real.sin angle, c.2 + D_SWIPE * Real.cos angle)
  let next_delta : ℝ := if layout (spot * 9 + ((dir + 1) % 8)) ≠ '\x00' then 1 else 4
  let prev_delta : ℝ := if layout (spot * 9 + ((dir + 7) % 8)) ≠ '\x00' then -1 else -4
  (endc, (next_delta - prev_delta) / 8)

/-- The "One key penalties" section of `penalize`: a tap adds the base tap
penalty to term 0, a swipe adds `SWIPE_PENALTY` to term 1, each times the
window count, keyed by the window's last character. -/
noncomputable def oneKeyPenalties (string : List Char) (cnt : ℝ) (curr : Nat)
    (result : PenaltyResults) (detailed : Bool) : ℝ × PenaltyResults :=
  let slice1 := string.drop (string.length - 1)
  if is_tap curr then
    let p := get_base_tap_penalty curr * cnt
    (p, if detailed then { result with base := bump result.base slice1 p } else result)
  else
    let p := SWIPE_PENALTY * cnt
    (p, if detailed then { result with swipe := bump result.swipe slice1 p } else result)

/-- The "Two key penalties" amount of `penalize` (before the count factor):
Fitts travel from the previous tap's center, or — when the previous key was a
swipe — the swipe surcharge `fitts_law(D_SWIPE, width) - A` plus Fitts travel
from the swipe's endpoint. -/
noncomputable def twoKeyPenalty (curr o1 : Nat) (layout : Layout) : ℝ :=
  if is_tap o1 then
    fitts_law (distance (get_coordinates o1) (get_coordinates curr)) 1
  else
    let sd := get_swipe_details o1 layout
    (fitts_law D_SWIPE sd.2 - A) +
      fitts_law (distance sd.1 (get_coordinates curr)) 1

/-- The "Three key penalties" amount of `penalize` (before the count factor):
the length-3 alternation bonus, subtracted for right-left-right or
left-right-left column patterns over distinct consecutive columns. -/
noncomputable def threeKeyPenalty (curr o1 o2 : Nat) : ℝ :=
  if get_column o2 ≠ get_column o1 ∧ get_column o1 ≠ get_column curr then
    (if is_right (get_column o2) ∧ is_left (get_column o1) ∧
        is_right (get_column curr) then -LENGTH_3_ALTERNATION_BONUS else 0) +
    (if is_left (get_column o2) ∧ is_right (get_column o1) ∧
        is_left (get_column curr) then -LENGTH_3_ALTERNATION_BONUS else 0)
  else 0

/-- The "Four key penalties" amount of `penalize` (before the count factor):
the length-4 alternation bonus for strictly alternating column patterns. -/
noncomputable def fourKeyPenalty (curr o1 o2 o3 : Nat) : ℝ :=
  if get_column o3 ≠ get_column o2 ∧ get_column o2 ≠ get_column o1 ∧
      get_column o1 ≠ get_column curr then
    (if is_left (get_column o3) ∧ is_right (get_column o2) ∧
        is_left (get_column o1) ∧ is_right (get_column curr) then
      -LENGTH_4_ALTERNATION_BONUS else 0) +
    (if is_right (get_column o3) ∧ is_left (get_column o2) ∧
        is_right (get_column o1) ∧ is_left (get_column curr) then
      -LENGTH_4_ALTERNATION_BONUS else 0)
  else 0

/-- Source `fn penalize` (penalty.rs): scores one window.  `string` is the
window, `curr` the position of its last character, `old1`/`old2`/`old3` the
positions of the up-to-three preceding characters (already looked up by
`penalty_for_quartad`).  Returns the window's total together with the updated
accumulators; each section early-returns exactly as the source does, and the
3- and 4-key sections are skipped when the last 3 (resp. 4) characters
contain a space. -/
noncomputable def penalize (string : List Char) (count : Nat) (curr : Nat)
    (old1 old2 old3 : Option Nat) (result : PenaltyResults) (detailed : Bool)
    (layout : Layout) : ℝ × PenaltyResults :=
  let len := string.length
  let cnt : ℝ := (count : ℝ)
  let r1 := oneKeyPenalties string cnt curr result detailed
  match old1 with
  | none => r1
  | some o1 =>
    let p2 := twoKeyPenalty curr o1 layout * cnt
    let res2 := if detailed then
        { r1.2 with travel := bump r1.2.travel (string.drop (len - 2)) p2 }
      else r1.2
    let total2 := r1.1 + p2
    match old2 with
    | none => (total2, res2)
    | some o2 =>
      if (string.drop (len - 3)).contains ' ' then (total2, res2)
      else
        let p3 := threeKeyPenalty curr o1 o2 * cnt
        let res3 := if detailed then
            { res2 with alt3 := bump res2.alt3 (string.drop (len - 3)) p3 }
          else res2
        let total3 := total2 + p3
        match old3 with
        | none => (total3, res3)
        | some o3 =>
          if (string.drop (len - 4)).contains ' ' then (total3, res3)
          else
            let p4 := fourKeyPenalty curr o1 o2 o3 * cnt
            let res4 := if detailed then
                { res3 with alt4 := bump res3.alt4 (string.drop (len - 4)) p4 }
              else res3
            (total3 + p4, res4)

/-- Source `fn penalty_for_quartad`: reverse the window, look up the last four
characters in the candidate's position map (a window whose current character is
not on the layout scores 0), and dispatch to `penalize`.  The `None` pattern of
`opt_curr` is the source's unreachable `panic!` (the table never holds an empty
window); it is embedded as a zero score. -/
noncomputable def penalty_for_quartad (string : List Char) (count : Nat)
    (pm : Char → Option Nat) (result : PenaltyResults) (detailed : Bool)
    (layout : Layout) : ℝ × PenaltyResults :=
  let rev := string.reverse
  match rev.get? 0 with
  | none => (0, result)
  | some c0 =>
    match pm c0 with
    | none => (0, result)
    | some curr =>
      let old1 := match rev.get? 1 with | some c => pm c | none => none
      let old2 := match rev.get? 2 with | some c => pm c | none => none
      let old3 := match rev.get? 3 with | some c => pm c | none => none
      penalize string count curr old1 old2 old3 result detailed layout

/-- Source `calculate_penalty` (penalty.rs): build the candidate layout's own
position map, fold every (window, count) pair of the quartad table through
`penalty_for_quartad`, and return `(total, total / len, result)`.  The
`penalties: &Vec<KeyPenalty>` argument only supplies the five fixed names,
which are embedded in `init_results`. -/
noncomputable def calculate_penalty (quartads : List (List Char × Nat))
    (len : Nat) (layout : Layout) (detailed : Bool) : ℝ × ℝ × PenaltyResults :=
  let pm := get_key_position layout
  let folded := quartads.foldl
    (fun acc q =>
      let r := penalty_for_quartad q.1 q.2 pm acc.2 detailed layout
      (acc.1 + r.1, r.2))
    ((0 : ℝ), init_results)
  (folded.1, folded.1 / (len : ℝ), folded.2)

/-! ### Helper lemmas about the neighbor generator -/

/-- The triples pushed by `LayoutPermutations::new` are exactly those with
`i < j ≤ k < 81` whose three positions share a tap/swipe class. -/
lemma mem_swaps_iff {i j k : Nat} :
    (i, j, k) ∈ swaps ↔
      i < j ∧ j ≤ k ∧ k < 81 ∧ is_tap i = is_tap j ∧ is_tap j = is_tap k := by
  constructor
  · intro h
    rw [swaps] at h
    rcases List.mem_flatMap.1 h with ⟨i', hi', h⟩
    rcases List.mem_flatMap.1 h with ⟨j', hj', h⟩
    rw [List.mem_range] at hi'
    rw [List.mem_range'_1] at hj'
    by_cases hc : is_tap i' = is_tap j'
    · rw [if_pos hc] at h
      rcases List.mem_filterMap.1 h with ⟨k', hk', hsome⟩
      rw [List.mem_range'_1] at hk'
      by_cases hc2 : is_tap j' = is_tap k'
      · rw [if_pos hc2, Option.some_inj] at hsome
        obtain ⟨rfl, rfl, rfl⟩ : i' = i ∧ j' = j ∧ k' = k := by
          simpa [Prod.ext_iff] using hsome
        exact ⟨by omega, by omega, by omega, hc, hc2⟩
      · rw [if_neg hc2] at hsome
        cases hsome
    · rw [if_neg hc] at h
      cases h
  · rintro ⟨h1, h2, h3, h4, h5⟩
    rw [swaps]
    refine List.mem_flatMap.2 ⟨i, List.mem_range.2 (by omega), ?_⟩
    refine List.mem_flatMap.2 ⟨j, List.mem_range'_1.2 ⟨by omega, by omega⟩, ?_⟩
    rw [if_pos h4]
    exact List.mem_filterMap.2
      ⟨k, List.mem_range'_1.2 ⟨h2, by omega⟩, by rw [if_pos h5]⟩

/-- A swap leaves every other position unchanged. -/
lemma swapN_apply_ne (L : Layout) {i j p : Nat} (hi : p ≠ i) (hj : p ≠ j) :
    swapN i j L p = L p := by
  simp [swapN, hi, hj]

/-- A two-swap step leaves every position off its triple unchanged. -/
lemma applyTriple_apply_ne (L : Layout) {i j k p : Nat}
    (h1 : p ≠ i) (h2 : p ≠ j) (h3 : p ≠ k) :
    applyTriple L (i, j, k) p = L p := by
  simp only [applyTriple]
  rw [swapN_apply_ne _ h2 h3, swapN_apply_ne _ h1 h2]

/-- `applyTriple_apply_ne` phrased on an undestructured triple. -/
lemma applyTriple_apply_ne' (L : Layout) (t : Nat × Nat × Nat) {p : Nat}
    (h1 : p ≠ t.1) (h2 : p ≠ t.2.1) (h3 : p ≠ t.2.2) :
    applyTriple L t p = L p := by
  obtain ⟨i, j, k⟩ := t
  exact applyTriple_apply_ne L h1 h2 h3

/-- The two-swap step is reading the base layout through the composite of the
two transpositions. -/
lemma applyTriple_eq_comp (L : Layout) (i j k : Nat) :
    applyTriple L (i, j, k)
      = fun p => L (Equiv.swap i j (Equiv.swap j k p)) := by
  funext p
  simp only [applyTriple, swapN, Equiv.swap_apply_def]
  split_ifs <;> first | rfl | simp_all

/-- `getD` commutes with `map` at in-range indices (stated without `getElem`
so that no index-bound side condition has to be discharged by evaluation). -/
lemma getD_map_of_lt {α β : Type} (f : α → β) (d : β) (d' : α) :
    ∀ (l : List α) (idx : Nat), idx < l.length →
      (l.map f).getD idx d = f (l.getD idx d')
  | [], idx, h => absurd h (by simp)
  | _ :: _, 0, _ => rfl
  | a :: l, idx + 1, h => by
    simp only [List.map_cons, List.getD_cons_succ]
    exact getD_map_of_lt f d d' l idx (by simpa using h)

set_option maxRecDepth 10000 in
set_option maxHeartbeats 4000000 in
/-- `LayoutPermutations::new` precomputes exactly 62316 swap triples: for each
tap/swipe class, one triple per choice `i < j ≤ k` inside the class
(9 tap positions and 72 swipe positions below 81). -/
lemma swaps_length : swaps.length = 62316 := by
  rw [swaps]
  simp only [List.length_flatMap, Function.comp_def, apply_ite List.length]
  decide

/-! ### Claims about the neighbor generator -/

/-- Claim C1, counterexample: the generator constructed from `INIT_LAYOUT`
yields (among others) the layout for the precomputed triple `(1, 9, 11)`,
which differs from the base at the three positions 1, 9 and 11 — not "exactly
at the two positions of one swap" as the claim states. -/
theorem single_swap_claim_cex :
    applyTriple INIT_LAYOUT (1, 9, 11) ∈ layoutPermutations INIT_LAYOUT ∧
    applyTriple INIT_LAYOUT (1, 9, 11) 1 ≠ INIT_LAYOUT 1 ∧
    applyTriple INIT_LAYOUT (1, 9, 11) 9 ≠ INIT_LAYOUT 9 ∧
    applyTriple INIT_LAYOUT (1, 9, 11) 11 ≠ INIT_LAYOUT 11 :=
  ⟨List.mem_map.2 ⟨(1, 9, 11), mem_swaps_iff.2 (by decide), rfl⟩,
   by decide, by decide, by decide⟩

/-- Claim C1 (amended): iterating the generator to exhaustion yields one
layout per precomputed class-constrained triple `(i, j, k)` with
`i < j ≤ k < 81` — 62316 of them, not `N*(N-1)/2` — and the layout at cursor
`idx` is the base with the swaps `(i, j)` then `(j, k)` of the `idx`-th triple
applied, agreeing with the base everywhere off that triple (so it differs at
the two positions of one swap only when `k = j`, and at three positions
otherwise). -/
theorem neighbor_generator_yield (base : Layout) (idx : Nat)
    (h : idx < (layoutPermutations base).length) :
    (layoutPermutations base).length = 62316 ∧
    (layoutPermutations base).getD idx base
      = applyTriple base (swaps.getD idx (0, 0, 0)) ∧
    ∀ p : Nat, p ≠ (swaps.getD idx (0, 0, 0)).1 →
      p ≠ (swaps.getD idx (0, 0, 0)).2.1 →
      p ≠ (swaps.getD idx (0, 0, 0)).2.2 →
      (layoutPermutations base).getD idx base p = base p := by
  have hlen : (layoutPermutations base).length = swaps.length :=
    List.length_map _ _
  have hidx : idx < swaps.length := by omega
  have hget : (layoutPermutations base).getD idx base
      = applyTriple base (swaps.getD idx (0, 0, 0)) :=
    getD_map_of_lt (applyTriple base) base (0, 0, 0) swaps idx hidx
  refine ⟨by rw [hlen, swaps_length], hget, ?_⟩
  intro p h1 h2 h3
  rw [hget]
  exact applyTriple_apply_ne' base _ h1 h2 h3

/-- Witness for the amended claim C1 at the first cursor position of the
generator over `INIT_LAYOUT`. -/
theorem neighbor_generator_yield_witness :
    (layoutPermutations INIT_LAYOUT).length = 62316 ∧
    (layoutPermutations INIT_LAYOUT).getD 0 INIT_LAYOUT
      = applyTriple INIT_LAYOUT (swaps.getD 0 (0, 0, 0)) ∧
    ∀ p : Nat, p ≠ (swaps.getD 0 (0, 0, 0)).1 →
      p ≠ (swaps.getD 0 (0, 0, 0)).2.1 →
      p ≠ (swaps.getD 0 (0, 0, 0)).2.2 →
      (layoutPermutations INIT_LAYOUT).getD 0 INIT_LAYOUT p = INIT_LAYOUT p :=
  neighbor_generator_yield INIT_LAYOUT 0
    (by rw [layoutPermutations, List.length_map, swaps_length]; norm_num)

/-- Claim C6: every layout yielded by the class-constrained generator
preserves tap/swipe classes — each position holds a character that occupied a
position of the same class (`is_tap` agrees) in the base layout. -/
theorem class_constraint (base L' : Layout)
    (h : L' ∈ layoutPermutations base) (p : Nat) :
    ∃ q : Nat, is_tap q = is_tap p ∧ L' p = base q := by
  rcases List.mem_map.1 h with ⟨t, ht, rfl⟩
  obtain ⟨i, j, k⟩ := t
  obtain ⟨hij, hjk, hk, hcij, hcjk⟩ := mem_swaps_iff.1 ht
  refine ⟨Equiv.swap i j (Equiv.swap j k p), ?_,
    by rw [applyTriple_eq_comp]⟩
  simp only [Equiv.swap_apply_def]
  split_ifs <;> simp_all

/-- Witness for claim C6: the first yielded layout over `INIT_LAYOUT`, at the
tap position 17. -/
theorem class_constraint_witness :
    ∃ q : Nat, is_tap q = is_tap 17 ∧
      applyTriple INIT_LAYOUT (0, 1, 1) 17 = INIT_LAYOUT q :=
  class_constraint INIT_LAYOUT (applyTriple INIT_LAYOUT (0, 1, 1))
    (List.mem_map.2 ⟨(0, 1, 1), mem_swaps_iff.2 (by decide), rfl⟩) 17

/-- Positions below 81 stay below 108 under the two transpositions of a
precomputed triple, and conversely. -/
lemma swap_comp_lt {i j k : Nat} (hi : i < 81) (hj : j < 81) (hk : k < 81)
    (p : Nat) : Equiv.swap i j (Equiv.swap j k p) < 108 ↔ p < 108 := by
  simp only [Equiv.swap_apply_def]
  split_ifs <;> omega

/-- Claim C7: every layout yielded by the generator is a permutation of the
base layout's character multiset — each character occupies exactly as many of
the 108 positions as it does in the base. -/
theorem multiset_preservation (base L' : Layout)
    (h : L' ∈ layoutPermutations base) (c : Char) :
    ((Finset.range 108).filter fun p => L' p = c).card
      = ((Finset.range 108).filter fun p => base p = c).card := by
  rcases List.mem_map.1 h with ⟨t, ht, rfl⟩
  obtain ⟨i, j, k⟩ := t
  obtain ⟨hij, hjk, hk, -, -⟩ := mem_swaps_iff.1 ht
  rw [applyTriple_eq_comp]
  refine Finset.card_equiv ((Equiv.swap j k).trans (Equiv.swap i j)) fun p => ?_
  simp only [Finset.mem_filter, Finset.mem_range, Equiv.trans_apply]
  rw [swap_comp_lt (by omega) (by omega) hk]

/-- Witness for claim C7: the first yielded layout over `INIT_LAYOUT` holds
the character `'c'` at exactly as many positions as the base does. -/
theorem multiset_preservation_witness :
    ((Finset.range 108).filter fun p => applyTriple INIT_LAYOUT (0, 1, 1) p = 'c').card
      = ((Finset.range 108).filter fun p => INIT_LAYOUT p = 'c').card :=
  multiset_preservation INIT_LAYOUT (applyTriple INIT_LAYOUT (0, 1, 1))
    (List.mem_map.2 ⟨(0, 1, 1), mem_swaps_iff.2 (by decide), rfl⟩) 'c'

/-- Claim C10: both `shuffle` (whose random indices are drawn mod 81) and the
neighbor generator (whose triples lie below 81) leave every position in
`81..107` untouched — in particular the space character at position 107 never
moves. -/
theorem frame_above_81 :
    (∀ (base : Layout) (draws : List (Nat × Nat)) (p : Nat), 81 ≤ p →
      shuffle base draws p = base p) ∧
    (∀ (base L' : Layout), L' ∈ layoutPermutations base → ∀ p : Nat, 81 ≤ p →
      L' p = base p) := by
  constructor
  · intro base draws p hp
    induction draws generalizing base with
    | nil => rfl
    | cons d rest ih =>
      rw [shuffle, List.foldl_cons, ← shuffle, ih]
      split_ifs
      · exact swapN_apply_ne base (by omega) (by omega)
      · rfl
  · intro base L' h p hp
    rcases List.mem_map.1 h with ⟨t, ht, rfl⟩
    obtain ⟨i, j, k⟩ := t
    obtain ⟨hij, hjk, hk, -, -⟩ := mem_swaps_iff.1 ht
    exact applyTriple_apply_ne base (by omega) (by omega) (by omega)

/-- Witness for claim C10: one shuffle draw and the first yielded layout both
keep the space character at position 107. -/
theorem frame_above_81_witness :
    shuffle INIT_LAYOUT [(0, 9)] 107 = INIT_LAYOUT 107 ∧
    applyTriple INIT_LAYOUT (0, 1, 1) 107 = INIT_LAYOUT 107 :=
  ⟨frame_above_81.1 INIT_LAYOUT [(0, 9)] 107 (by norm_num),
   frame_above_81.2 INIT_LAYOUT (applyTriple INIT_LAYOUT (0, 1, 1))
     (List.mem_map.2 ⟨(0, 1, 1), mem_swaps_iff.2 (by decide), rfl⟩) 107
     (by norm_num)⟩

/-! ### Claims about the penalty model -/

/-- Sum of the `total` fields of all five per-term accumulators (the entries
of the returned `Vec<KeyPenaltyResult>` in `init()` order). -/
noncomputable def sumTotals (r : PenaltyResults) : ℝ :=
  r.base.total + r.swipe.total + r.travel.total + r.alt3.total + r.alt4.total

/-- Bumping the base accumulator adds the amount to the five-term sum. -/
lemma sumTotals_bump_base (r : PenaltyResults) (s : List Char) (a : ℝ) :
    sumTotals { r with base := bump r.base s a } = sumTotals r + a := by
  simp only [sumTotals, bump]
  ring

/-- Bumping the swipe accumulator adds the amount to the five-term sum. -/
lemma sumTotals_bump_swipe (r : PenaltyResults) (s : List Char) (a : ℝ) :
    sumTotals { r with swipe := bump r.swipe s a } = sumTotals r + a := by
  simp only [sumTotals, bump]
  ring

/-- The one-key section adds its returned amount to the five-term sum. -/
lemma oneKeyPenalties_sum (string : List Char) (cnt : ℝ) (curr : Nat)
    (result : PenaltyResults) :
    sumTotals (oneKeyPenalties string cnt curr result true).2
      = sumTotals result + (oneKeyPenalties string cnt curr result true).1 := by
  simp only [oneKeyPenalties, reduceIte]
  split_ifs
  · exact sumTotals_bump_base result _ _
  · exact sumTotals_bump_swipe result _ _

/-- In detailed mode, one `penalize` call adds its returned window total to
the per-term accumulators, term by term. -/
lemma penalize_sum (string : List Char) (count : Nat) (curr : Nat)
    (old1 old2 old3 : Option Nat) (result : PenaltyResults) (layout : Layout) :
    sumTotals (penalize string count curr old1 old2 old3 result true layout).2
      = sumTotals result
        + (penalize string count curr old1 old2 old3 result true layout).1 := by
  have hone := oneKeyPenalties_sum string ((count : Nat) : ℝ) curr result
  rcases old1 with _ | o1
  · simpa only [penalize] using hone
  · rcases old2 with _ | o2
    · simp only [penalize, reduceIte]
      simp only [sumTotals, bump] at hone ⊢
      linarith
    · rcases old3 with _ | o3
      · simp only [penalize, reduceIte]
        split_ifs <;> (simp only [sumTotals, bump] at hone ⊢; linarith)
      · simp only [penalize, reduceIte]
        split_ifs <;> (simp only [sumTotals, bump] at hone ⊢; linarith)

/-- In detailed mode, one `penalty_for_quartad` call adds its returned total
to the per-term accumulators. -/
lemma penalty_for_quartad_sum (string : List Char) (count : Nat)
    (pm : Char → Option Nat) (result : PenaltyResults) (layout : Layout) :
    sumTotals (penalty_for_quartad string count pm result true layout).2
      = sumTotals result
        + (penalty_for_quartad string count pm result true layout).1 := by
  rw [penalty_for_quartad]
  simp only
  rcases hrev : string.reverse.get? 0 with _ | c0
  · simp [hrev]
  · rcases hpm : pm c0 with _ | curr
    · simp [hrev, hpm]
    · simp only [hrev, hpm]
      exact penalize_sum _ _ _ _ _ _ _ _

/-- The fold inside `calculate_penalty` preserves the difference between the
running total and the accumulator sum. -/
lemma calculate_fold_sum (pm : Char → Option Nat) (layout : Layout) :
    ∀ (l : List (List Char × Nat)) (acc : ℝ × PenaltyResults),
      (l.foldl (fun acc q =>
          let r := penalty_for_quartad q.1 q.2 pm acc.2 true layout
          (acc.1 + r.1, r.2)) acc).1
        - sumTotals (l.foldl (fun acc q =>
            let r := penalty_for_quartad q.1 q.2 pm acc.2 true layout
            (acc.1 + r.1, r.2)) acc).2
        = acc.1 - sumTotals acc.2
  | [], acc => by simp
  | q :: l, acc => by
    rw [List.foldl_cons]
    rw [calculate_fold_sum pm layout l]
    simp only
    rw [penalty_for_quartad_sum]
    ring

/-- Claim C2: with detailed mode enabled, the absolute total returned by the
scorer equals the sum of the `total` fields of all returned per-term
`KeyPenaltyResult` entries, for every quartad table, corpus length, and
candidate layout. -/
theorem total_eq_sum_of_terms (quartads : List (List Char × Nat)) (len : Nat)
    (layout : Layout) :
    (calculate_penalty quartads len layout true).1
      = sumTotals (calculate_penalty quartads len layout true).2.2 := by
  have h := calculate_fold_sum (get_key_position layout) layout quartads
    ((0 : ℝ), init_results)
  have hz : sumTotals init_results = 0 := by
    simp [sumTotals, init_results]
  rw [calculate_penalty]
  simp only
  rw [hz] at h
  simp only at h
  linarith [h]

/-- Claim C4, counterexample: position 1 is a swipe in direction 1 (an
odd-indexed, hence per the claim "unfavorable", direction), yet the scorer
adds exactly the flat `SWIPE_PENALTY` with no additional direction penalty:
its window total coincides with that of the even-direction swipe at
position 0 of the same cell. -/
theorem swipe_direction_cex :
    (penalize ['x'] 1 1 none none none init_results true INIT_LAYOUT).1
      = SWIPE_PENALTY * 1 ∧
    (penalize ['x'] 1 0 none none none init_results true INIT_LAYOUT).1
      = (penalize ['x'] 1 1 none none none init_results true INIT_LAYOUT).1 := by
  constructor <;> norm_num [penalize, oneKeyPenalties, is_tap]

/-- Claim C4 (amended): whenever the current character sits at a swipe
position, the single-window scorer adds the flat cost
`SWIPE_PENALTY * count` to the swipe term — the same amount for every swipe
direction; no additional penalty for an unfavorable direction exists. -/
theorem swipe_flat_cost (string : List Char) (count : Nat) (curr : Nat)
    (old1 old2 old3 : Option Nat) (result : PenaltyResults) (layout : Layout)
    (h : is_tap curr = false) :
    (penalize string count curr old1 old2 old3 result true layout).2.swipe.total
      = result.swipe.total + SWIPE_PENALTY * count := by
  have h1 : (oneKeyPenalties string ((count : Nat) : ℝ) curr result true).2.swipe.total
      = result.swipe.total + SWIPE_PENALTY * count := by
    simp [oneKeyPenalties, h, bump]
  rcases old1 with _ | o1
  · simpa only [penalize] using h1
  · rcases old2 with _ | o2
    · simpa [penalize, bump] using h1
    · rcases old3 with _ | o3
      · simp only [penalize, reduceIte]
        split_ifs <;> simpa [bump] using h1
      · simp only [penalize, reduceIte]
        split_ifs <;> simpa [bump] using h1

/-- Witness for the amended claim C4 at the odd-direction swipe position 1
over a one-character window. -/
theorem swipe_flat_cost_witness :
    (penalize ['x'] 1 1 none none none init_results true INIT_LAYOUT).2.swipe.total
      = init_results.swipe.total + SWIPE_PENALTY * (1 : Nat) :=
  swipe_flat_cost ['x'] 1 1 none none none init_results INIT_LAYOUT (by decide)

/-- The Fitts's-Law movement-time formula as the specification words it:
`max(A, (1/k) * log2(distance/width + 1))` with the fitted constant
`k = 4.9` and the minimum tap-time floor `A`. -/
noncomputable def fitts_formula_spec (d w : ℝ) : ℝ :=
  max A (1 / 4.9 * Real.logb 2 (d / w + 1))

/-- The previous key's effective position as the specification words it: its
cell center if it was a tap, its computed swipe endpoint if it was a swipe. -/
noncomputable def effective_position_spec (prev : Nat) (layout : Layout) : ℝ × ℝ :=
  if is_tap prev then get_coordinates prev else (get_swipe_details prev layout).1

/-- The travel-time cost of one keystroke pair as the specification words it:
the Fitts time from the previous key's effective position to the current
key's center with target width 1, plus — when the previous key was a swipe —
the surcharge `fitts(swipe_distance, swipe_width) - A`. -/
noncomputable def travel_time_spec (prev curr : Nat) (layout : Layout) : ℝ :=
  fitts_formula_spec
      (distance (effective_position_spec prev layout) (get_coordinates curr)) 1
    + (if is_tap prev then 0
       else fitts_formula_spec D_SWIPE (get_swipe_details prev layout).2 - A)

/-- The one-key section never touches the travel accumulator. -/
lemma oneKeyPenalties_travel (string : List Char) (cnt : ℝ) (curr : Nat)
    (result : PenaltyResults) (detailed : Bool) :
    (oneKeyPenalties string cnt curr result detailed).2.travel = result.travel := by
  rw [oneKeyPenalties]
  split_ifs <;> rfl

/-- The source's two-key travel amount is exactly the specification's
travel-time formula. -/
lemma twoKeyPenalty_eq_spec (curr prev : Nat) (layout : Layout) :
    twoKeyPenalty curr prev layout = travel_time_spec prev curr layout := by
  simp only [twoKeyPenalty, travel_time_spec, effective_position_spec,
    fitts_formula_spec, fitts_law]
  split_ifs <;> ring

/-- Claim C5: for every window whose two most recent characters resolved to
layout positions, the scorer's travel term grows by exactly the window count
times the specification's travel-time formula (Fitts time from the previous
key's effective position to the current key's center at width 1, plus the
swipe surcharge when the previous key was a swipe). -/
theorem travel_term_fitts (string : List Char) (count : Nat) (curr prev : Nat)
    (old2 old3 : Option Nat) (result : PenaltyResults) (layout : Layout) :
    (penalize string count curr (some prev) old2 old3 result true layout).2.travel.total
      = result.travel.total + (count : ℝ) * travel_time_spec prev curr layout := by
  rcases old2 with _ | o2
  · simp only [penalize, reduceIte]
    simp [bump, oneKeyPenalties_travel, twoKeyPenalty_eq_spec]
    ring
  · rcases old3 with _ | o3
    · simp only [penalize, reduceIte]
      split_ifs <;> simp [bump, oneKeyPenalties_travel, twoKeyPenalty_eq_spec] <;> ring
    · simp only [penalize, reduceIte]
      split_ifs <;> simp [bump, oneKeyPenalties_travel, twoKeyPenalty_eq_spec] <;> ring

/-! ### Claims about the quartad compiler and the position map -/

/-- The claim C3 scenario: a layout where `'a'` is the tap of cell 0
(position 8) and `'b'` the tap of the adjacent cell 1 (position 17), every
other slot empty; the space character is not on the layout, so it acts as a
delimiter. -/
def abLayout : Layout :=
  fun p => if p = 8 then 'a' else if p = 17 then 'b' else '\x00'

/-- Claim C3, counterexample: for the corpus `"ab ab"` over the scenario
position map, the quartad table does NOT contain the window `"ab "` — the
space is absent from the map, so it resets the window and no recorded window
ever includes it. -/
theorem quartad_scenario_cex :
    lookupQ (prepare_quartad_list (get_key_position abLayout) ("ab ab".toList))
      ['a', 'b', ' '] = none := by
  decide

/-- Claim C3 (amended): for the corpus `"ab ab"` over the scenario position
map, the quartad table is exactly `{"a" ↦ 2, "ab" ↦ 2}`: the two occurrences
of `"ab"` are counted separately because the space resets the window, and the
window `"ab "` is never recorded. -/
theorem quartad_scenario :
    prepare_quartad_list (get_key_position abLayout) ("ab ab".toList)
      = [(['a'], 2), (['a', 'b'], 2)] := by
  decide

/-- A key of an incremented table is either the incremented window or a key
that was already present. -/
lemma incrQ_mem {t : List (List Char × Nat)} {q w : List Char} {n : Nat}
    (h : (w, n) ∈ incrQ t q) : w = q ∨ ∃ m, (w, m) ∈ t := by
  induction t with
  | nil =>
    simp only [incrQ, List.mem_singleton, Prod.mk.injEq] at h
    exact Or.inl h.1
  | cons kv rest ih =>
    obtain ⟨k0, n0⟩ := kv
    rw [incrQ] at h
    by_cases hk : k0 = q
    · rw [if_pos hk] at h
      rcases List.mem_cons.1 h with h | h
      · injection h with h1 h2
        exact Or.inl (h1.trans hk)
      · exact Or.inr ⟨n, List.mem_cons_of_mem _ h⟩
    · rw [if_neg hk] at h
      rcases List.mem_cons.1 h with h | h
      · injection h with h1 h2
        exact Or.inr ⟨n0, by rw [h1]; exact List.mem_cons_self _ _⟩
      · rcases ih h with h | ⟨m, hm⟩
        · exact Or.inl h
        · exact Or.inr ⟨m, List.mem_cons_of_mem _ hm⟩

/-- Induction core for claim C8: scanning preserves the invariants that the
window region `[start, i)` holds only placeable characters and that every key
already in the table is all-placeable, so every key of the final table is
all-placeable. -/
lemma quartadGo_placeable (pm : Char → Option Nat) (s : List Char) :
    ∀ (rem : List Char) (i start : Nat) (t : List (List Char × Nat)),
      s.drop i = rem → start ≤ i →
      (∀ j (hj : j < s.length), start ≤ j → j < i →
        pm (s.get ⟨j, hj⟩) ≠ none) →
      (∀ w n, (w, n) ∈ t → ∀ c ∈ w, pm c ≠ none) →
      ∀ w n, (w, n) ∈ quartadGo pm s rem i start t → ∀ c ∈ w, pm c ≠ none
  | [], _, _, _, _, _, _, ht => ht
  | ch :: rem, i, start, t, hdrop, hsi, hreg, ht => by
    have hilt : i < s.length := by
      by_contra hle
      rw [List.drop_eq_nil_of_le (by omega)] at hdrop
      cases hdrop
    have hcons := List.drop_eq_getElem_cons hilt
    rw [hdrop] at hcons
    injection hcons with hch hdrop'
    rcases hpm : pm ch with _ | x
    · simp only [quartadGo, hpm]
      refine quartadGo_placeable pm s rem (i + 1) (i + 1) t hdrop'.symm
        (le_refl _) ?_ ht
      intro j hj h1 h2
      exact absurd h2 (by omega)
    · simp only [quartadGo, hpm]
      set start' := if 3 < i + 1 ∧ start < i + 1 - 4 then i + 1 - 4 else start
        with hs'
      have hss : start ≤ start' := by rw [hs']; split_ifs <;> omega
      have hsi' : start' ≤ i := by rw [hs']; split_ifs <;> omega
      have hreg' : ∀ j (hj : j < s.length), start' ≤ j → j < i + 1 →
          pm (s.get ⟨j, hj⟩) ≠ none := by
        intro j hj h1 h2
        by_cases hji : j = i
        · subst hji
          have hval : s.get ⟨j, hj⟩ = ch := by
            rw [hch]
            exact List.get_eq_getElem s ⟨j, hj⟩
          rw [hval, hpm]
          simp
        · exact hreg j hj (by omega) (by omega)
      have ht' : ∀ w n,
          (w, n) ∈ incrQ t ((s.drop start').take (i + 1 - start')) →
          ∀ c ∈ w, pm c ≠ none := by
        intro w n hw c hc
        rcases incrQ_mem hw with rfl | ⟨m, hm⟩
        · rcases List.mem_iff_getElem.1 hc with ⟨u, hu, hval⟩
          have hu' := hu
          rw [List.length_take, List.length_drop] at hu'
          rw [List.getElem_take, List.getElem_drop] at hval
          have hbound : start' + u < s.length := by omega
          have hget : s.get ⟨start' + u, hbound⟩ = c :=
            (List.get_eq_getElem s ⟨start' + u, hbound⟩).trans hval
          have := hreg' (start' + u) hbound (by omega) (by omega)
          rw [hget] at this
          exact this
        · exact ht w m hm c hc
      exact quartadGo_placeable pm s rem (i + 1) start' _ hdrop'.symm
        (by omega) hreg' ht'

/-- Claim C8: every window recorded in the quartad table consists only of
characters present in the position map — a delimiter (a character the map
does not contain) never appears inside any recorded window, so no window
spans across a delimiter. -/
theorem windows_only_placeable (pm : Char → Option Nat) (s : List Char)
    (w : List Char) (n : Nat) (hw : (w, n) ∈ prepare_quartad_list pm s)
    (c : Char) (hc : c ∈ w) : pm c ≠ none := by
  refine quartadGo_placeable pm s s 0 0 [] rfl (le_refl 0) ?_ ?_ w n ?_ c hc
  · intro j hj h1 h2
    exact absurd h2 (by omega)
  · intro w n hw
    cases hw
  · rwa [prepare_quartad_list] at hw

/-- Witness for claim C8 on the scenario map and corpus `"ab ab"`: the window
`"ab"` is in the table and its character `'a'` is placeable. -/
theorem windows_only_placeable_witness :
    get_key_position abLayout 'a' ≠ none :=
  windows_only_placeable (get_key_position abLayout) ("ab ab".toList)
    ['a', 'b'] 2 (by decide) 'a' (by decide)

/-- In `get_position_map`'s fold, the last write wins: if `L q = c` below `n`
and no later position below `n` holds `c`, the fold maps `c` to `q`. -/
lemma get_position_map_last_write (L : Layout) (c : Char)
    (hc : c.toNat < 128) :
    ∀ (n : Nat) (m : Char → Option Nat) (q : Nat), q < n → L q = c →
      (∀ r, q < r → r < n → L r ≠ c) →
      ((List.range n).foldl
        (fun m p =>
          if (L p).toNat < 128 then fun d => if d = L p then some p else m d
          else m) m) c = some q := by
  intro n
  induction n with
  | zero => exact fun m q hq _ _ => absurd hq (Nat.not_lt_zero q)
  | succ n ih =>
    intro m q hq hLq hafter
    rw [List.range_succ, List.foldl_append, List.foldl_cons, List.foldl_nil]
    by_cases hqn : q = n
    · subst hqn
      rw [hLq, if_pos hc]
      simp
    · have hLn : L n ≠ c := hafter n (by omega) (by omega)
      by_cases h128 : (L n).toNat < 128
      · rw [if_pos h128]
        rw [if_neg (fun h => hLn h.symm)]
        exact ih m q (by omega) hLq fun r h1 h2 => hafter r h1 (by omega)
      · rw [if_neg h128]
        exact ih m q (by omega) hLq fun r h1 h2 => hafter r h1 (by omega)

/-- Claim C9: a layout holding the null sentinel `'\0'` somewhere yields a
position map in which `'\0'` is present — mapped to its highest-indexed
`'\0'` slot — and consequently `prepare_quartad_list` treats a `'\0'` corpus
character as placeable: the corpus `"\0\0"` records the windows `"\0"` and
`"\0\0"` (the second window extends over the first `'\0'` instead of being
reset). -/
theorem null_char_placeable (L : Layout) (q : Nat) (hq : q < 108)
    (hLq : L q = '\x00') (hafter : ∀ r, r < 108 → q < r → L r ≠ '\x00') :
    get_key_position L '\x00' = some q ∧
    prepare_quartad_list (get_key_position L) ['\x00', '\x00']
      = [(['\x00'], 1), (['\x00', '\x00'], 1)] := by
  have hlook : get_key_position L '\x00' = some q := by
    rw [get_key_position, if_pos (by decide : ('\x00').toNat < 128)]
    exact get_position_map_last_write L '\x00' (by decide) 108 _ q hq hLq
      fun r h1 h2 => hafter r h2 h1
  refine ⟨hlook, ?_⟩
  rw [prepare_quartad_list]
  rw [quartadGo, hlook]
  norm_num [incrQ]
  rw [quartadGo, hlook]
  norm_num [incrQ]
  rw [quartadGo]

/-- Witness for claim C9 at `INIT_LAYOUT`, whose highest-indexed `'\0'` slot
is position 106 (position 107 holds the space). -/
theorem null_char_placeable_witness :
    get_key_position INIT_LAYOUT '\x00' = some 106 ∧
    prepare_quartad_list (get_key_position INIT_LAYOUT) ['\x00', '\x00']
      = [(['\x00'], 1), (['\x00', '\x00'], 1)] :=
  null_char_placeable INIT_LAYOUT 106 (by norm_num) (by decide) (by decide)

end Keygen
